import Mathlib

/-!
Verification development for the MarchingNumPy / MarchingCuPy repository.

The file shallowly embeds the marching pipeline in Lean:

* the generic edge-id scheme (`size_multiplier`, `edge_id`) of
  `Marching.py` (`marching`, lines 128-136);
* the complete 2-D marching-squares instance: the static tables of
  `MarchingSquares.py`, the intersect finder of `FindIntersects.py`,
  the cell classifier of `VolumeTypes.py`, the ambiguity resolver of
  `MarchingSquares.py`, the geometry lookup of `LookUpGeometry.py`
  and the index remapper of `ConvertIndexes.py`.

Volumes are modelled as total functions `ℕ → ℕ → ℚ` together with an
explicit shape `(Nx, Ny)`; numpy arrays built by the pipeline become
Lean lists constructed in the same (row-major) order as the code
builds them.  Stages that can raise in Python return `Option` here,
with `none` standing for a raised error.
-/

namespace Marching

/-- The interpolation modes accepted by `find_intersects`
(`INTERPOLATION_VALUES` in `FindIntersects.py`). -/
inductive Interpolation
  | HALFWAY
  | LINEAR
  | COSINE
deriving DecidableEq

/-- Size multiplier of `Marching.py` lines 131-136.  The code sets
`size_multiplier[: nD-1] = shape[::-1].cumprod()[::-1][1:]` and then
multiplies by `nEdges`, i.e. entry `k` is `nEdges * (N_{k+1} * ... * N_{n-1})`
and the last entry is `nEdges`.  The recursion below produces exactly
those values: the head entry for shape `N :: rest` is `nEdges * rest.prod`. -/
def size_multiplier (nEdges : ℕ) : List ℕ → List ℕ
  | [] => []
  | _ :: rest => nEdges * rest.prod :: size_multiplier nEdges rest

/-- Edge id of a corner plus a direction:
`(corner * size_multiplier).sum(axis=1) + direction`
(`FindIntersects.py` line 223, `LookUpGeometry.py` lines 86-88, 108). -/
def edge_id (corner S : List ℕ) (direction : ℕ) : ℕ :=
  (List.zipWith (· * ·) corner S).sum + direction

/-! ### Static tables of the 2-D squares instance (`MarchingCuPy/MarchingSquares.py`) -/

/-- `EDGE_DELTA` (lines 58-67): corner offset owning each edge
{Bottom, Right, Top, Left}. -/
def EDGE_DELTA : List (ℕ × ℕ) := [(0, 0), (1, 0), (0, 1), (0, 0)]

/-- `EDGE_DIRECTION` (lines 69-78). -/
def EDGE_DIRECTION : List ℕ := [0, 1, 0, 1]

/-- `GEOMETRY_LOOKUP` (lines 95-120): 16 base rows plus the two
disambiguated rows 16 and 17, written out with the edge-pair
constants substituted (`_NONE = [-1,-1]`, `_BOTTOM_LEFT = [0,3]`,
`_BOTTOM_RIGHT = [1,0]`, `_VERTICAL = [2,0]`, `_HORIZONTAL = [1,3]`,
`_TOP_LEFT = [2,3]`, `_TOP_RIGHT = [2,1]`). -/
def GEOMETRY_LOOKUP : List (List ℤ) :=
  [ [-1, -1, -1, -1],       -- 0
    [0, 3, -1, -1],         -- 1  _BOTTOM_LEFT
    [1, 0, -1, -1],         -- 2  _BOTTOM_RIGHT
    [1, 3, -1, -1],         -- 3  _HORIZONTAL
    [2, 1, -1, -1],         -- 4  _TOP_RIGHT
    [2, 3, 0, 1],           -- 5  _TOP_LEFT + reverse _BOTTOM_RIGHT
    [2, 0, -1, -1],         -- 6  _VERTICAL
    [2, 3, -1, -1],         -- 7  _TOP_LEFT
    [3, 2, -1, -1],         -- 8  reverse _TOP_LEFT
    [0, 2, -1, -1],         -- 9  reverse _VERTICAL
    [3, 2, 1, 0],           -- 10 reverse _TOP_LEFT + _BOTTOM_RIGHT
    [1, 2, -1, -1],         -- 11 reverse _TOP_RIGHT
    [3, 1, -1, -1],         -- 12 reverse _HORIZONTAL
    [0, 1, -1, -1],         -- 13 reverse _BOTTOM_RIGHT
    [3, 0, -1, -1],         -- 14 reverse _BOTTOM_LEFT
    [-1, -1, -1, -1],       -- 15
    [2, 1, 0, 3],           -- 16 (from 5)  _TOP_RIGHT + _BOTTOM_LEFT
    [1, 2, 3, 0] ]          -- 17 (from 10) reverse _TOP_RIGHT + reverse _BOTTOM_LEFT

/-! ### Volume test and intersect finder (`FindIntersects.py`) -/

/-- `volume_test = (volume >= 0)` (`Marching.py` line 126) on the
zero-referenced volume. -/
def volume_test (v : ℕ → ℕ → ℚ) (x y : ℕ) : Bool :=
  decide (0 ≤ v x y)

/-- The interpolated crossing offset (`FindIntersects.py` lines 170-195).
`COSINE` uses `arccos(·)/π`, which is not a rational; it is abstracted by
the oracle argument `acosOverPi` standing for `x ↦ arccos(x)/π`.  The
claims under verification only evaluate `HALFWAY` and `LINEAR`. -/
def interpolated_offset (interp : Interpolation) (acosOverPi : ℚ → ℚ)
    (n_value nplus1_value : ℚ) : ℚ :=
  match interp with
  | .HALFWAY => 1 / 2
  | .LINEAR => n_value / (n_value - nplus1_value)
  | .COSINE => acosOverPi ((nplus1_value + n_value) / (nplus1_value - n_value))

/-- The crossing corners for the axis-0 slice pair
`("[:-1, :]", "[1:, :]")`: the row-major coordinates where
`volume_test[:-1, :] != volume_test[1:, :]` (`cupy.nonzero`, line 151). -/
def crossings0 (Nx Ny : ℕ) (test : ℕ → ℕ → Bool) : List (ℕ × ℕ) :=
  (List.product (List.range (Nx - 1)) (List.range Ny)).filter
    fun c => test c.1 c.2 != test (c.1 + 1) c.2

/-- The crossing corners for the axis-1 slice pair
`("[:, :-1]", "[:, 1:]")`. -/
def crossings1 (Nx Ny : ℕ) (test : ℕ → ℕ → Bool) : List (ℕ × ℕ) :=
  (List.product (List.range Nx) (List.range (Ny - 1))).filter
    fun c => test c.1 c.2 != test c.1 (c.2 + 1)

/-- `find_intersects` (`FindIntersects.py` lines 13-231) specialised to the
two 2-D slice pairs of `MarchingSquares.py`.  For each axis `i` the crossing
corners are cast to coordinates, the interpolated offset is added along the
slice direction, and the ids are `(corners * size_multiplier).sum(axis=1) + i`.
The axis-0 block is concatenated before the axis-1 block, exactly as the
Python loop appends them. -/
def find_intersects (Nx Ny : ℕ) (v : ℕ → ℕ → ℚ) (test : ℕ → ℕ → Bool)
    (interp : Interpolation) (acosOverPi : ℚ → ℚ) :
    List (ℚ × ℚ) × List ℕ :=
  let S := size_multiplier 2 [Nx, Ny]
  let c0 := crossings0 Nx Ny test
  let c1 := crossings1 Nx Ny test
  ( c0.map (fun c =>
        ((c.1 : ℚ) + interpolated_offset interp acosOverPi (v c.1 c.2) (v (c.1 + 1) c.2),
         (c.2 : ℚ)))
      ++ c1.map (fun c =>
        ((c.1 : ℚ),
         (c.2 : ℚ) + interpolated_offset interp acosOverPi (v c.1 c.2) (v c.1 (c.2 + 1)))),
    c0.map (fun c => edge_id [c.1, c.2] S 0)
      ++ c1.map (fun c => edge_id [c.1, c.2] S 1) )

/-! ### Cell classifier (`VolumeTypes.py`) -/

/-- `volume_types` (`VolumeTypes.py` lines 125-134) with the 2-D
`VOLUME_TYPE_SLICES` of `MarchingSquares.py`: iterating the four corner
slices or-s bit `1 << i` into the cell type wherever the test holds. -/
def volume_types (test : ℕ → ℕ → Bool) (x y : ℕ) : ℕ :=
  (if test x y then 1 else 0) |||
  (if test (x + 1) y then 2 else 0) |||
  (if test (x + 1) (y + 1) then 4 else 0) |||
  (if test x (y + 1) then 8 else 0)

/-! ### Ambiguity resolver (`MarchingCuPy/MarchingSquares.py` lines 122-141) -/

/-- `interpolate_face_values` (lines 126-130): the asymptotic-decider face
test `volume[:-1,:-1] * volume[1:,1:] < volume[:-1,1:] * volume[1:,:-1]`
at cell `(x, y)`. -/
def interpolate_face_values (v : ℕ → ℕ → ℚ) (x y : ℕ) : Bool :=
  decide (v x y * v (x + 1) (y + 1) < v x (y + 1) * v (x + 1) y)

/-- One pass of the resolver loop: where `types == ambiguous_type` and the
face test holds, the type becomes `resolved_type`. -/
def resolve_pass (ambiguous_type resolved_type : ℕ)
    (types : ℕ → ℕ → ℕ) (face : ℕ → ℕ → Bool) (x y : ℕ) : ℕ :=
  if types x y = ambiguous_type ∧ face x y then resolved_type else types x y

/-- `ambiguity_resolution` (lines 133-141): the in-place loop over
`SQUARE_AMBIGUITY_RESOLUTION = {5: 16, 10: 17}`, first rewriting type-5
cells and then type-10 cells. -/
def ambiguity_resolution (types : ℕ → ℕ → ℕ) (v : ℕ → ℕ → ℚ) (x y : ℕ) : ℕ :=
  resolve_pass 10 17
    (resolve_pass 5 16 types (interpolate_face_values v))
    (interpolate_face_values v) x y

/-! ### Geometry lookup (`LookUpGeometry.py`) -/

/-- `vertex_id_offset_lookup = (edge_delta * size_multiplier).sum(axis=-1)
+ edge_direction` (`LookUpGeometry.py` lines 86-88). -/
def vertex_id_offset (Nx Ny e : ℕ) : ℕ :=
  edge_id [(EDGE_DELTA.getD e (0, 0)).1, (EDGE_DELTA.getD e (0, 0)).2]
    (size_multiplier 2 [Nx, Ny]) (EDGE_DIRECTION.getD e 0)

/-- `corner_ids = (filter * size_multiplier).sum(axis=-1)` (line 108). -/
def corner_id (Nx Ny x y : ℕ) : ℕ :=
  edge_id [x, y] (size_multiplier 2 [Nx, Ny]) 0

/-- The cells of the grid in row-major order: the index space of the
`types` array of shape `(Nx - 1, Ny - 1)`. -/
def cells (Nx Ny : ℕ) : List (ℕ × ℕ) :=
  List.product (List.range (Nx - 1)) (List.range (Ny - 1))

/-- One iteration of the geometry loop (`LookUpGeometry.py` lines 92-116)
at slot `i`: the cells whose looked-up row has a non-sentinel entry at
column `i` each emit the pair of vertex ids
`corner_id + vertex_id_offset[row[i]]`, `corner_id + vertex_id_offset[row[i+1]]`. -/
def lookup_slot (Nx Ny : ℕ) (types : ℕ → ℕ → ℕ) (i : ℕ) : List (ℕ × ℕ) :=
  (cells Nx Ny).filterMap fun c =>
    let row := GEOMETRY_LOOKUP.getD (types c.1 c.2) []
    if row.getD i (-1) = -1 then none
    else some
      (corner_id Nx Ny c.1 c.2 + vertex_id_offset Nx Ny (row.getD i (-1)).toNat,
       corner_id Nx Ny c.1 c.2 + vertex_id_offset Nx Ny (row.getD (i + 1) (-1)).toNat)

/-- The slot loop with its early exit: `for i in range(0, 4, 2)` breaking
as soon as a slot matches no cell (lines 92-99). -/
def look_up_go (Nx Ny : ℕ) (types : ℕ → ℕ → ℕ) : List ℕ → List (ℕ × ℕ)
  | [] => []
  | i :: rest =>
      let s := lookup_slot Nx Ny types i
      if s = [] then [] else s ++ look_up_go Nx Ny types rest

/-- `look_up_geometry` for the squares instance (`nV = 2`, table width 4). -/
def look_up_geometry (Nx Ny : ℕ) (types : ℕ → ℕ → ℕ) : List (ℕ × ℕ) :=
  look_up_go Nx Ny types [0, 2]

/-! ### Index remapper (`ConvertIndexes.py`, NUMPY method) -/

/-- Python's `enumerate`. -/
def enumerate : ℕ → List ℕ → List (ℕ × ℕ)
  | _, [] => []
  | n, a :: l => (n, a) :: enumerate (n + 1) l

/-- The scatter loop `for i, ordered_id in enumerate(ordered_ids):
numpy_lookup[ordered_id] = i` (`ConvertIndexes.py` lines 161-162). -/
def scatter_writes : List ℕ → List (ℕ × ℕ) → List ℕ
  | t, [] => t
  | t, (i, e) :: rest => scatter_writes (t.set e i) rest

/-- The vectorized gather `numpy_lookup[array]` on an array of id pairs;
`none` models the `IndexError` raised when any id is out of bounds. -/
def lookup_all (table : List ℕ) : List (ℕ × ℕ) → Option (List (ℕ × ℕ))
  | [] => some []
  | p :: rest =>
      match table.get? p.1, table.get? p.2, lookup_all table rest with
      | some a, some b, some r => some ((a, b) :: r)
      | _, _, _ => none

/-- `ndarray_numpy_ordered_lookup` (`ConvertIndexes.py` lines 125-163).
The first guard models the dtype-selection loop, which raises
`ValueError("Index size error")` when `len(ordered_ids)` reaches the
`uint64` maximum; the second models `ordered_ids.max()` raising on an
empty array.  Otherwise a zero-initialised table of size `max + 1`
receives `table[ordered_ids[i]] = i` and the array is gathered through it. -/
def ndarray_numpy_ordered_lookup (arr : List (ℕ × ℕ)) (ordered_ids : List ℕ) :
    Option (List (ℕ × ℕ)) :=
  if 2 ^ 64 - 1 ≤ ordered_ids.length then none
  else if ordered_ids = [] then none
  else
    let table := scatter_writes
      (List.replicate (ordered_ids.foldl max 0 + 1) 0) (enumerate 0 ordered_ids)
    lookup_all table arr

/-- `convert_indexes` (`ConvertIndexes.py` lines 7-57) with the default
`method="NUMPY"` used by `marching` (`Marching.py` line 176): an empty
array is returned unchanged; otherwise the ordered numpy lookup runs. -/
def convert_indexes (arr : List (ℕ × ℕ)) (ordered_ids : List ℕ) :
    Option (List (ℕ × ℕ)) :=
  if arr = [] then some arr else ndarray_numpy_ordered_lookup arr ordered_ids

/-! ### The assembled pipeline (`Marching.py` `marching`, squares instance) -/

/-- Zero-referencing of the volume against the level
(`Marching.py` lines 122-124: subtract only when `level.any()`). -/
def zeroed (v : ℕ → ℕ → ℚ) (level : ℚ) : ℕ → ℕ → ℚ :=
  if level = 0 then v else fun x y => v x y - level

/-- Cell types after optional ambiguity resolution
(`Marching.py` lines 149-158). -/
def pipeline_types (v : ℕ → ℕ → ℚ) (level : ℚ) (resolve_ambiguous : Bool) :
    ℕ → ℕ → ℕ :=
  let vol := zeroed v level
  let types := volume_types (volume_test vol)
  if resolve_ambiguous then fun x y => ambiguity_resolution types vol x y
  else types

/-- The geometry of absolute edge ids before index remapping. -/
def pipeline_pre (Nx Ny : ℕ) (v : ℕ → ℕ → ℚ) (level : ℚ)
    (resolve_ambiguous : Bool) : List (ℕ × ℕ) :=
  look_up_geometry Nx Ny (pipeline_types v level resolve_ambiguous)

/-- `marching` (`Marching.py` lines 108-178) for the squares instance:
check the shape, zero-reference the volume, find the intersects, classify
and resolve the cells, look up the geometry and remap its edge ids to
ordinal vertex indices.  `none` models a raised error. -/
def marching_squares (Nx Ny : ℕ) (v : ℕ → ℕ → ℚ) (level : ℚ)
    (interp : Interpolation) (acosOverPi : ℚ → ℚ) (resolve_ambiguous : Bool) :
    Option (List (ℚ × ℚ) × List (ℕ × ℕ)) :=
  if Nx < 2 ∨ Ny < 2 then none
  else
    let vol := zeroed v level
    let fi := find_intersects Nx Ny vol (volume_test vol) interp acosOverPi
    let pre := pipeline_pre Nx Ny v level resolve_ambiguous
    (convert_indexes pre fi.2).map fun g => (fi.1, g)

/-- The edge ids emitted by `find_intersects`, in emission order and in
the two-dimensional normal form. -/
def ids_normal (Nx Ny : ℕ) (test : ℕ → ℕ → Bool) : List ℕ :=
  (crossings0 Nx Ny test).map (fun c => 2 * (Ny * c.1 + c.2))
    ++ (crossings1 Nx Ny test).map (fun c => 2 * (Ny * c.1 + c.2) + 1)


/-- The cell-type bitmask as a function of the four corner tests. -/
def encode (b0 b1 b2 b3 : Bool) : ℕ :=
  (if b0 then 1 else 0) ||| (if b1 then 2 else 0) |||
  (if b2 then 4 else 0) ||| (if b3 then 8 else 0)


/-- Pointwise effect of the resolver on one cell type. -/
def resolve_code (t : ℕ) (face : Bool) : ℕ :=
  if t = 5 ∧ face then 16 else if t = 10 ∧ face then 17 else t


/-- Whether edge number `e` of a cell joins two corners whose tests
disagree, given the four corner tests in bit order. -/
def edge_ok (e : ℕ) (b0 b1 b2 b3 : Bool) : Bool :=
  match e with
  | 0 => b0 != b1
  | 1 => b1 != b2
  | 2 => b3 != b2
  | 3 => b0 != b3
  | _ => false


/-! ### Concrete volumes used by the scenario claims -/

/-- Scenario S1: `volume = [[1.0, 1.0], [1.0, -1.0]]`. -/
def s1vol : ℕ → ℕ → ℚ := fun x y => if x = 1 ∧ y = 1 then -1 else 1

/-- A volume with a value exactly at the level:
`volume = [[1.0, 0.0], [1.0, 1.0]]`. -/
def c7vol : ℕ → ℕ → ℚ := fun x y => if x = 0 ∧ y = 1 then 0 else 1

/-! ### The dtype-width check of the classifier (`VolumeTypes.py` lines 115-119) -/

/-- The guard `1 << nDir > numpy.iinfo(types.dtype).max` under which
`volume_types` raises `TypeError`. -/
def type_too_narrow (nDir dtype_max : ℕ) : Bool :=
  decide (dtype_max < 1 <<< nDir)

/-- The `largest index` printed by the classifier's error message,
`(1 << nDir) - 1`: the maximum cell-type value. -/
def largest_type_value (nDir : ℕ) : ℕ :=
  (1 <<< nDir) - 1


/-! ### Lemmas -/

theorem size_multiplier_cons (nEdges N : ℕ) (rest : List ℕ) :
    size_multiplier nEdges (N :: rest) =
      nEdges * rest.prod :: size_multiplier nEdges rest := rfl

theorem edge_id_nil (d : ℕ) (S : List ℕ) : edge_id [] S d = d := by
  simp [edge_id]

theorem edge_id_cons (a s d : ℕ) (c S : List ℕ) :
    edge_id (a :: c) (s :: S) d = a * s + edge_id c S d := by
  simp [edge_id]; ring

/-- `edge_id` is bounded by `nEdges` times the grid volume. -/
theorem edge_id_lt (nEdges : ℕ) (shape corner : List ℕ)
    (hc : List.Forall₂ (· < ·) corner shape) (d : ℕ) (hd : d < nEdges)
    (hpos : ∀ N ∈ shape, 0 < N) :
    edge_id corner (size_multiplier nEdges shape) d < nEdges * shape.prod := by
  induction hc with
  | nil => simpa [edge_id] using hd
  | @cons a N c rest ha _ ih =>
      have hrest : ∀ M ∈ rest, 0 < M := fun M hM => hpos M (by simp [hM])
      have ihr := ih hrest
      rw [size_multiplier_cons, edge_id_cons]
      calc a * (nEdges * rest.prod) + edge_id c (size_multiplier nEdges rest) d
          < a * (nEdges * rest.prod) + nEdges * rest.prod :=
            Nat.add_lt_add_left ihr _
        _ = (a + 1) * (nEdges * rest.prod) := by ring
        _ ≤ N * (nEdges * rest.prod) := Nat.mul_le_mul_right _ ha
        _ = nEdges * (N :: rest).prod := by rw [List.prod_cons]; ring

/-- Uniqueness of quotient-remainder decompositions. -/
theorem mul_add_inj (E a b r s : ℕ) (hr : r < E) (hs : s < E)
    (h : a * E + r = b * E + s) : a = b ∧ r = s := by
  rcases Nat.lt_trichotomy a b with hab | hab | hab
  · exfalso
    have h1 : a * E + r < (a + 1) * E := by
      have := Nat.add_lt_add_left hr (a * E); simpa [Nat.succ_mul] using this
    have h2 : (a + 1) * E ≤ b * E := Nat.mul_le_mul_right _ hab
    have h3 : b * E ≤ b * E + s := Nat.le_add_right _ _
    omega
  · refine ⟨hab, ?_⟩
    subst hab
    omega
  · exfalso
    have h1 : b * E + s < (b + 1) * E := by
      have := Nat.add_lt_add_left hs (b * E); simpa [Nat.succ_mul] using this
    have h2 : (b + 1) * E ≤ a * E := Nat.mul_le_mul_right _ hab
    have h3 : a * E ≤ a * E + r := Nat.le_add_right _ _
    omega

/-- Core injectivity of the edge-id scheme, by induction along the shape. -/
theorem edge_id_inj_aux (nEdges : ℕ) (shape c1 c2 : List ℕ)
    (h1 : List.Forall₂ (· < ·) c1 shape) (h2 : List.Forall₂ (· < ·) c2 shape)
    (d1 d2 : ℕ) (hd1 : d1 < nEdges) (hd2 : d2 < nEdges)
    (hpos : ∀ N ∈ shape, 0 < N)
    (h : edge_id c1 (size_multiplier nEdges shape) d1 =
         edge_id c2 (size_multiplier nEdges shape) d2) :
    c1 = c2 ∧ d1 = d2 := by
  induction h1 generalizing c2 with
  | nil =>
      rcases h2 with _ | _
      simp only [edge_id_nil] at h
      exact ⟨rfl, h⟩
  | @cons a N c rest ha hc ih =>
      rcases h2 with _ | ⟨hb, hc2⟩
      rename_i b c2'
      have hrest : ∀ M ∈ rest, 0 < M := fun M hM => hpos M (by simp [hM])
      rw [size_multiplier_cons, edge_id_cons, edge_id_cons] at h
      have hlt1 := edge_id_lt nEdges rest c hc d1 hd1 hrest
      have hlt2 := edge_id_lt nEdges rest c2' hc2 d2 hd2 hrest
      have hmain := mul_add_inj (nEdges * rest.prod) a b _ _ hlt1 hlt2 h
      have htail := ih c2' hc2 hrest hmain.2
      exact ⟨by rw [hmain.1, htail.1], htail.2⟩

/-! ### Normal forms and structural lemmas for the 2-D instance -/

/-- In two dimensions the edge id of corner `(x, y)` with direction `d`
is `2 * (Ny * x + y) + d`. -/
theorem edge_id_pair (Nx Ny x y d : ℕ) :
    edge_id [x, y] (size_multiplier 2 [Nx, Ny]) d = 2 * (Ny * x + y) + d := by
  simp [edge_id, size_multiplier]
  ring

theorem corner_id_eq (Nx Ny x y : ℕ) :
    corner_id Nx Ny x y = 2 * (Ny * x + y) := by
  simp [corner_id, edge_id_pair]

theorem vertex_id_offset_vals (Nx Ny : ℕ) :
    vertex_id_offset Nx Ny 0 = 0 ∧ vertex_id_offset Nx Ny 1 = 2 * Ny + 1 ∧
    vertex_id_offset Nx Ny 2 = 2 ∧ vertex_id_offset Nx Ny 3 = 1 := by
  refine ⟨?_, ?_, ?_, ?_⟩ <;>
    simp [vertex_id_offset, EDGE_DELTA, EDGE_DIRECTION, edge_id, size_multiplier]

theorem mem_crossings0 {Nx Ny : ℕ} {test : ℕ → ℕ → Bool} {c : ℕ × ℕ} :
    c ∈ crossings0 Nx Ny test ↔
      c.1 < Nx - 1 ∧ c.2 < Ny ∧ test c.1 c.2 ≠ test (c.1 + 1) c.2 := by
  obtain ⟨x, y⟩ := c
  simp [crossings0, List.mem_filter, SProd.sprod, and_assoc]

theorem mem_crossings1 {Nx Ny : ℕ} {test : ℕ → ℕ → Bool} {c : ℕ × ℕ} :
    c ∈ crossings1 Nx Ny test ↔
      c.1 < Nx ∧ c.2 < Ny - 1 ∧ test c.1 c.2 ≠ test c.1 (c.2 + 1) := by
  obtain ⟨x, y⟩ := c
  simp [crossings1, List.mem_filter, SProd.sprod, and_assoc]

theorem crossings0_nodup (Nx Ny : ℕ) (test : ℕ → ℕ → Bool) :
    (crossings0 Nx Ny test).Nodup :=
  (((List.nodup_range _).product (List.nodup_range _)).filter _)

theorem crossings1_nodup (Nx Ny : ℕ) (test : ℕ → ℕ → Bool) :
    (crossings1 Nx Ny test).Nodup :=
  (((List.nodup_range _).product (List.nodup_range _)).filter _)

theorem find_intersects_snd (Nx Ny : ℕ) (v : ℕ → ℕ → ℚ) (test : ℕ → ℕ → Bool)
    (interp : Interpolation) (ac : ℚ → ℚ) :
    (find_intersects Nx Ny v test interp ac).2 = ids_normal Nx Ny test := by
  simp only [find_intersects, ids_normal]
  congr 1 <;> exact List.map_congr_left fun c _ => by simp [edge_id_pair]

/-- Positional uniqueness for the 2-D base `Ny * x + y` with `y < Ny`. -/
theorem base2_inj {Ny x y a b : ℕ} (hy : y < Ny) (hb : b < Ny)
    (h : Ny * x + y = Ny * a + b) : x = a ∧ y = b := by
  have h2 : x * Ny + y = a * Ny + b := by
    rw [Nat.mul_comm x Ny, Nat.mul_comm a Ny]; exact h
  exact mul_add_inj Ny x a y b hy hb h2

theorem ids_normal_nodup (Nx Ny : ℕ) (test : ℕ → ℕ → Bool) :
    (ids_normal Nx Ny test).Nodup := by
  rw [ids_normal, List.nodup_append]
  refine ⟨?_, ?_, ?_⟩
  · refine (crossings0_nodup Nx Ny test).map_on ?_
    intro c hc d hd h
    have hcm := mem_crossings0.1 hc
    have hdm := mem_crossings0.1 hd
    have h2 : Ny * c.1 + c.2 = Ny * d.1 + d.2 := by omega
    have := base2_inj hcm.2.1 hdm.2.1 h2
    exact Prod.ext this.1 this.2
  · refine (crossings1_nodup Nx Ny test).map_on ?_
    intro c hc d hd h
    have hcm := mem_crossings1.1 hc
    have hdm := mem_crossings1.1 hd
    have hcy : c.2 < Ny := by omega
    have hdy : d.2 < Ny := by omega
    have h2 : Ny * c.1 + c.2 = Ny * d.1 + d.2 := by omega
    have := base2_inj hcy hdy h2
    exact Prod.ext this.1 this.2
  · intro p hp hq
    simp only [List.mem_map] at hp hq
    obtain ⟨c, _, hc⟩ := hp
    obtain ⟨d, _, hd⟩ := hq
    omega

/-! ### Pointwise characterisation of the resolver and the lookup tables -/

theorem volume_types_encode (test : ℕ → ℕ → Bool) (x y : ℕ) :
    volume_types test x y =
      encode (test x y) (test (x + 1) y) (test (x + 1) (y + 1)) (test x (y + 1)) := rfl

theorem ambiguity_resolution_eq (types : ℕ → ℕ → ℕ) (v : ℕ → ℕ → ℚ) (x y : ℕ) :
    ambiguity_resolution types v x y =
      resolve_code (types x y) (interpolate_face_values v x y) := by
  unfold ambiguity_resolution resolve_pass resolve_code
  by_cases h5 : types x y = 5 <;>
    by_cases h10 : types x y = 10 <;>
      by_cases hf : interpolate_face_values v x y <;> simp_all

theorem pipeline_types_eq (v : ℕ → ℕ → ℚ) (level : ℚ) (ra : Bool) (x y : ℕ) :
    pipeline_types v level ra x y =
      resolve_code (volume_types (volume_test (zeroed v level)) x y)
        (ra && interpolate_face_values (zeroed v level) x y) := by
  unfold pipeline_types
  cases ra with
  | false =>
      simp only [Bool.false_and, if_neg Bool.false_ne_true]
      unfold resolve_code
      simp
  | true =>
      simp only [if_pos rfl, Bool.true_and]
      exact ambiguity_resolution_eq _ _ x y

/-- Soundness of `GEOMETRY_LOOKUP`, after ambiguity resolution, with
respect to the corner tests: every non-sentinel entry in a used slot
names an edge whose two endpoints test differently (checked exhaustively
over the 32 corner/face configurations and both slots). -/
theorem table_ok (b0 b1 b2 b3 face : Bool) (i : ℕ) (hi : i = 0 ∨ i = 2)
    (h : (GEOMETRY_LOOKUP.getD (resolve_code (encode b0 b1 b2 b3) face) []).getD i (-1) ≠ -1) :
    edge_ok ((GEOMETRY_LOOKUP.getD (resolve_code (encode b0 b1 b2 b3) face) []).getD i (-1)).toNat
      b0 b1 b2 b3 = true ∧
    edge_ok ((GEOMETRY_LOOKUP.getD (resolve_code (encode b0 b1 b2 b3) face) []).getD (i + 1) (-1)).toNat
      b0 b1 b2 b3 = true := by
  rcases hi with rfl | rfl <;>
    revert h <;>
      cases b0 <;> cases b1 <;> cases b2 <;> cases b3 <;> cases face <;> decide

theorem mem_cells {Nx Ny : ℕ} {c : ℕ × ℕ} :
    c ∈ cells Nx Ny ↔ c.1 < Nx - 1 ∧ c.2 < Ny - 1 := by
  obtain ⟨x, y⟩ := c
  simp [cells, SProd.sprod]

theorem mem_look_up_go {Nx Ny : ℕ} {types : ℕ → ℕ → ℕ} {slots : List ℕ} {p : ℕ × ℕ}
    (h : p ∈ look_up_go Nx Ny types slots) :
    ∃ i ∈ slots, p ∈ lookup_slot Nx Ny types i := by
  induction slots with
  | nil => simp [look_up_go] at h
  | cons i rest ih =>
      rw [look_up_go] at h
      by_cases hs : lookup_slot Nx Ny types i = []
      · simp [hs] at h
      · rw [if_neg hs] at h
        rcases List.mem_append.1 h with h1 | h2
        · exact ⟨i, List.mem_cons_self i rest, h1⟩
        · obtain ⟨j, hj, hpj⟩ := ih h2
          exact ⟨j, List.mem_cons_of_mem i hj, hpj⟩

theorem mem_lookup_slot {Nx Ny : ℕ} {types : ℕ → ℕ → ℕ} {i : ℕ} {p : ℕ × ℕ}
    (h : p ∈ lookup_slot Nx Ny types i) :
    ∃ c ∈ cells Nx Ny,
      (GEOMETRY_LOOKUP.getD (types c.1 c.2) []).getD i (-1) ≠ -1 ∧
      p = (corner_id Nx Ny c.1 c.2 +
             vertex_id_offset Nx Ny ((GEOMETRY_LOOKUP.getD (types c.1 c.2) []).getD i (-1)).toNat,
           corner_id Nx Ny c.1 c.2 +
             vertex_id_offset Nx Ny ((GEOMETRY_LOOKUP.getD (types c.1 c.2) []).getD (i + 1) (-1)).toNat) := by
  obtain ⟨c, hc, hfc⟩ := List.mem_filterMap.1 h
  dsimp only at hfc
  split at hfc
  · cases hfc
  · rename_i hrow
    exact ⟨c, hc, hrow, (Option.some.inj hfc).symm⟩

/-- Each edge of a cell whose endpoint tests disagree contributes an id
that `find_intersects` emits. -/
theorem edge_mem_ids (Nx Ny : ℕ) (test : ℕ → ℕ → Bool) (x y e : ℕ)
    (hx : x < Nx - 1) (hy : y < Ny - 1)
    (hok : edge_ok e (test x y) (test (x + 1) y) (test (x + 1) (y + 1)) (test x (y + 1)) = true) :
    corner_id Nx Ny x y + vertex_id_offset Nx Ny e ∈ ids_normal Nx Ny test := by
  obtain ⟨h0, h1, h2, h3⟩ := vertex_id_offset_vals Nx Ny
  match e with
  | 0 =>
      rw [corner_id_eq, h0]
      refine List.mem_append_left _ (List.mem_map.2 ⟨(x, y), mem_crossings0.2 ?_, by ring⟩)
      refine ⟨hx, by omega, ?_⟩
      simpa [edge_ok] using hok
  | 1 =>
      rw [corner_id_eq, h1]
      refine List.mem_append_right _ (List.mem_map.2 ⟨(x + 1, y), mem_crossings1.2 ?_, by ring⟩)
      refine ⟨by omega, hy, ?_⟩
      simpa [edge_ok] using hok
  | 2 =>
      rw [corner_id_eq, h2]
      refine List.mem_append_left _ (List.mem_map.2 ⟨(x, y + 1), mem_crossings0.2 ?_, by ring⟩)
      refine ⟨hx, by omega, ?_⟩
      have : test x (y + 1) ≠ test (x + 1) (y + 1) := by simpa [edge_ok] using hok
      exact this
  | 3 =>
      rw [corner_id_eq, h3]
      refine List.mem_append_right _ (List.mem_map.2 ⟨(x, y), mem_crossings1.2 ?_, by ring⟩)
      refine ⟨by omega, hy, ?_⟩
      simpa [edge_ok] using hok
  | (n + 4) =>
      simp [edge_ok] at hok

/-- Every edge id in the pre-remap geometry is emitted by the intersect
finder. -/
theorem pre_mem_ids (Nx Ny : ℕ) (v : ℕ → ℕ → ℚ) (level : ℚ) (ra : Bool)
    (p : ℕ × ℕ) (hp : p ∈ pipeline_pre Nx Ny v level ra) :
    p.1 ∈ ids_normal Nx Ny (volume_test (zeroed v level)) ∧
    p.2 ∈ ids_normal Nx Ny (volume_test (zeroed v level)) := by
  obtain ⟨i, hi, hp2⟩ := mem_look_up_go hp
  obtain ⟨c, hc, hrow, hpe⟩ := mem_lookup_slot hp2
  have hcell := mem_cells.1 hc
  have hi2 : i = 0 ∨ i = 2 := by simpa using hi
  have htypes := pipeline_types_eq v level ra c.1 c.2
  rw [volume_types_encode] at htypes
  rw [htypes] at hrow hpe
  have htab := table_ok _ _ _ _ _ i hi2 hrow
  rw [hpe]
  exact ⟨edge_mem_ids Nx Ny _ c.1 c.2 _ hcell.1 hcell.2 htab.1,
         edge_mem_ids Nx Ny _ c.1 c.2 _ hcell.1 hcell.2 htab.2⟩

/-! ### Behaviour of the scatter table and the remapper -/

theorem le_foldl_max (l : List ℕ) (b : ℕ) :
    b ≤ l.foldl max b ∧ ∀ e ∈ l, e ≤ l.foldl max b := by
  induction l generalizing b with
  | nil => simp
  | cons a l ih =>
      obtain ⟨h1, h2⟩ := ih (max b a)
      refine ⟨le_trans (le_max_left b a) h1, ?_⟩
      intro e he
      rcases List.mem_cons.1 he with rfl | he
      · exact le_trans (le_max_right b e) h1
      · exact h2 e he

theorem scatter_writes_length (ws : List (ℕ × ℕ)) (t : List ℕ) :
    (scatter_writes t ws).length = t.length := by
  induction ws generalizing t with
  | nil => rfl
  | cons w ws ih =>
      obtain ⟨i, e⟩ := w
      rw [scatter_writes, ih]
      simp

theorem scatter_writes_get_of_ne (ws : List (ℕ × ℕ)) (t : List ℕ) (p : ℕ)
    (h : ∀ w ∈ ws, w.2 ≠ p) :
    (scatter_writes t ws).get? p = t.get? p := by
  induction ws generalizing t with
  | nil => rfl
  | cons w ws ih =>
      obtain ⟨i, e⟩ := w
      rw [scatter_writes, ih _ (fun w hw => h w (List.mem_cons_of_mem _ hw))]
      exact List.get?_set_ne i t (h (i, e) (List.mem_cons_self _ _))

theorem mem_enumerate_snd {n : ℕ} {l : List ℕ} {w : ℕ × ℕ}
    (h : w ∈ enumerate n l) : w.2 ∈ l := by
  induction l generalizing n with
  | nil => cases h
  | cons a l ih =>
      rw [enumerate] at h
      rcases List.mem_cons.1 h with rfl | h
      · exact List.mem_cons_self _ _
      · exact List.mem_cons_of_mem _ (ih h)

theorem scatter_enumerate_get (l : List ℕ) (hnd : l.Nodup) :
    ∀ (t : List ℕ) (n : ℕ), (∀ e ∈ l, e < t.length) →
      ∀ (k : ℕ) (hk : k < l.length),
        (scatter_writes t (enumerate n l)).get? (l.get ⟨k, hk⟩) = some (n + k) := by
  induction l with
  | nil => intro t n _ k hk; cases hk
  | cons a l ih =>
      intro t n hlen k hk
      rw [enumerate, scatter_writes]
      match k with
      | 0 =>
          have hna : ∀ w ∈ enumerate (n + 1) l, w.2 ≠ a := by
            intro w hw hwa
            exact (List.nodup_cons.1 hnd).1 (hwa ▸ mem_enumerate_snd hw)
          show (scatter_writes (t.set a n) (enumerate (n + 1) l)).get? a = some (n + 0)
          rw [scatter_writes_get_of_ne _ _ _ hna]
          have ha : a < t.length := hlen a (List.mem_cons_self _ _)
          simpa using List.get?_set_eq_of_lt n ha
      | k + 1 =>
          have hlen2 : ∀ e ∈ l, e < (t.set a n).length := by
            intro e he
            simpa using hlen e (List.mem_cons_of_mem _ he)
          have := ih (List.nodup_cons.1 hnd).2 (t.set a n) (n + 1) hlen2 k
            (by simpa using Nat.lt_of_succ_lt_succ hk)
          simpa [Nat.add_assoc, Nat.add_comm 1 k] using this

/-- The scatter table resolves a present id to its ordinal position. -/
theorem numpy_table_get (ids : List ℕ) (hnd : ids.Nodup) (e : ℕ) (he : e ∈ ids) :
    (scatter_writes (List.replicate (ids.foldl max 0 + 1) 0) (enumerate 0 ids)).get? e =
      some (ids.indexOf e) := by
  have hk : ids.indexOf e < ids.length := List.indexOf_lt_length.2 he
  have hget : ids.get ⟨ids.indexOf e, hk⟩ = e := List.indexOf_get hk
  have hlen : ∀ a ∈ ids, a < (List.replicate (ids.foldl max 0 + 1) (0 : ℕ)).length := by
    intro a ha
    have := (le_foldl_max ids 0).2 a ha
    simpa using Nat.lt_succ_of_le this
  have := scatter_enumerate_get ids hnd _ 0 hlen (ids.indexOf e) hk
  rw [hget] at this
  simpa using this

/-- The scatter table silently resolves a missing id that is at most the
maximum to index 0 (the zero initialisation is never overwritten there). -/
theorem numpy_table_get_missing (ids : List ℕ) (e : ℕ) (he : e ∉ ids)
    (hle : e ≤ ids.foldl max 0) :
    (scatter_writes (List.replicate (ids.foldl max 0 + 1) 0) (enumerate 0 ids)).get? e =
      some 0 := by
  have hna : ∀ w ∈ enumerate 0 ids, w.2 ≠ e := by
    intro w hw hwe
    exact he (hwe ▸ mem_enumerate_snd hw)
  rw [scatter_writes_get_of_ne _ _ _ hna]
  simp [List.get?_eq_getElem?, Nat.lt_succ_of_le hle]

/-- The scatter table raises (gather out of bounds) beyond the maximum. -/
theorem numpy_table_get_oob (ids : List ℕ) (e : ℕ) (hgt : ids.foldl max 0 < e) :
    (scatter_writes (List.replicate (ids.foldl max 0 + 1) 0) (enumerate 0 ids)).get? e =
      none := by
  apply List.get?_eq_none.2
  rw [scatter_writes_length]
  simpa using hgt

theorem lookup_all_eq_map (table : List ℕ) (arr : List (ℕ × ℕ)) (f : ℕ → ℕ)
    (h : ∀ p ∈ arr, table.get? p.1 = some (f p.1) ∧ table.get? p.2 = some (f p.2)) :
    lookup_all table arr = some (arr.map fun p => (f p.1, f p.2)) := by
  induction arr with
  | nil => rfl
  | cons q arr ih =>
      obtain ⟨h1, h2⟩ := h q (List.mem_cons_self _ _)
      rw [lookup_all, h1, h2, ih (fun p hp => h p (List.mem_cons_of_mem _ hp))]
      rfl

theorem lookup_all_none (table : List ℕ) (arr : List (ℕ × ℕ)) (p : ℕ × ℕ)
    (hp : p ∈ arr) (h : table.get? p.1 = none) :
    lookup_all table arr = none := by
  induction arr with
  | nil => cases hp
  | cons q arr ih =>
      rw [lookup_all]
      rcases List.mem_cons.1 hp with rfl | hp2
      · rw [h]
      · rcases hq1 : table.get? q.1 with _ | a
        · rfl
        · rcases hq2 : table.get? q.2 with _ | b
          · rfl
          · rw [ih hp2]

/-- The remapper succeeds and replaces every id with its ordinal position
whenever all ids in the array occur in the ordered id list. -/
theorem convert_indexes_spec (arr : List (ℕ × ℕ)) (ids : List ℕ) (hnd : ids.Nodup)
    (hmem : ∀ p ∈ arr, p.1 ∈ ids ∧ p.2 ∈ ids) (hsz : ids.length < 2 ^ 64 - 1) :
    convert_indexes arr ids =
      some (arr.map fun p => (ids.indexOf p.1, ids.indexOf p.2)) := by
  match arr with
  | [] => rfl
  | q :: arr2 =>
      have hne : ids ≠ [] := by
        intro h0
        have := (hmem q (List.mem_cons_self _ _)).1
        rw [h0] at this
        cases this
      rw [convert_indexes, if_neg (by simp), ndarray_numpy_ordered_lookup,
        if_neg (by omega), if_neg hne]
      exact lookup_all_eq_map _ _ (fun e => ids.indexOf e) fun p hp =>
        ⟨numpy_table_get ids hnd p.1 (hmem p hp).1,
         numpy_table_get ids hnd p.2 (hmem p hp).2⟩

/-! ### The success form of a marching call -/

theorem find_intersects_fst_length (Nx Ny : ℕ) (v : ℕ → ℕ → ℚ)
    (test : ℕ → ℕ → Bool) (interp : Interpolation) (ac : ℚ → ℚ) :
    (find_intersects Nx Ny v test interp ac).1.length = (ids_normal Nx Ny test).length := by
  simp [find_intersects, ids_normal]

/-- Whenever the shape check passes and the id count stays within the
`uint64` range, the marching call returns the intersect vertices together
with the ordinal-remapped geometry. -/
theorem marching_squares_spec (Nx Ny : ℕ) (v : ℕ → ℕ → ℚ) (level : ℚ)
    (interp : Interpolation) (ac : ℚ → ℚ) (ra : Bool)
    (h2x : 2 ≤ Nx) (h2y : 2 ≤ Ny)
    (hsz : (ids_normal Nx Ny (volume_test (zeroed v level))).length < 2 ^ 64 - 1) :
    marching_squares Nx Ny v level interp ac ra =
      some ((find_intersects Nx Ny (zeroed v level) (volume_test (zeroed v level)) interp ac).1,
            (pipeline_pre Nx Ny v level ra).map fun p =>
              ((ids_normal Nx Ny (volume_test (zeroed v level))).indexOf p.1,
               (ids_normal Nx Ny (volume_test (zeroed v level))).indexOf p.2)) := by
  rw [marching_squares, if_neg (by omega)]
  dsimp only
  rw [find_intersects_snd]
  rw [convert_indexes_spec _ _ (ids_normal_nodup _ _ _)
    (fun p hp => pre_mem_ids Nx Ny v level ra p hp) hsz]
  rfl

/-! ### Uniform volumes -/

theorem zeroed_zero (v : ℕ → ℕ → ℚ) : zeroed v 0 = v := if_pos rfl

theorem volume_test_zeroed (v : ℕ → ℕ → ℚ) (level : ℚ) (x y : ℕ) :
    volume_test (zeroed v level) x y = decide (level ≤ v x y) := by
  unfold volume_test zeroed
  split_ifs with h
  · subst h; rfl
  · show decide (0 ≤ v x y - level) = decide (level ≤ v x y)
    exact decide_eq_decide.2 (by constructor <;> intro <;> linarith)

/-- A marching call on a volume whose test is constant over the grid
returns empty vertices and empty geometry. -/
theorem marching_uniform (Nx Ny : ℕ) (v : ℕ → ℕ → ℚ) (level : ℚ)
    (interp : Interpolation) (ac : ℚ → ℚ) (ra : Bool)
    (h2x : 2 ≤ Nx) (h2y : 2 ≤ Ny) (bb : Bool)
    (hconst : ∀ x, x < Nx → ∀ y, y < Ny → volume_test (zeroed v level) x y = bb) :
    marching_squares Nx Ny v level interp ac ra = some ([], []) := by
  have hc0 : crossings0 Nx Ny (volume_test (zeroed v level)) = [] := by
    refine List.filter_eq_nil_iff.2 ?_
    intro c hc
    obtain ⟨a, b⟩ := c
    replace hc := List.mem_product.1 hc
    simp only [List.mem_range] at hc
    rw [hconst a (by omega) b (by omega), hconst (a + 1) (by omega) b (by omega)]
    simp
  have hc1 : crossings1 Nx Ny (volume_test (zeroed v level)) = [] := by
    refine List.filter_eq_nil_iff.2 ?_
    intro c hc
    obtain ⟨a, b⟩ := c
    replace hc := List.mem_product.1 hc
    simp only [List.mem_range] at hc
    rw [hconst a (by omega) b (by omega), hconst a (by omega) (b + 1) (by omega)]
    simp
  have hfi : find_intersects Nx Ny (zeroed v level) (volume_test (zeroed v level)) interp ac
      = ([], []) := by
    simp [find_intersects, hc0, hc1]
  have hrow : ∀ c ∈ cells Nx Ny,
      (GEOMETRY_LOOKUP.getD (pipeline_types v level ra c.1 c.2) []).getD 0 (-1) = -1 := by
    intro c hc
    have hcell := mem_cells.1 hc
    rw [pipeline_types_eq, volume_types_encode]
    rw [hconst c.1 (by omega) c.2 (by omega),
        hconst (c.1 + 1) (by omega) c.2 (by omega),
        hconst (c.1 + 1) (by omega) (c.2 + 1) (by omega),
        hconst c.1 (by omega) (c.2 + 1) (by omega)]
    cases bb <;>
      cases ra && interpolate_face_values (zeroed v level) c.1 c.2 <;> rfl
  have hslot : lookup_slot Nx Ny (pipeline_types v level ra) 0 = [] := by
    refine List.filterMap_eq_nil_iff.2 ?_
    intro c hc
    exact if_pos (hrow c hc)
  have hpre : pipeline_pre Nx Ny v level ra = [] := by
    rw [pipeline_pre, look_up_geometry, look_up_go, if_pos hslot]
  rw [marching_squares, if_neg (by omega)]
  dsimp only
  rw [hfi, hpre]
  rfl

/-- Claim C6: a marching call on a volume uniformly at or above the level,
or uniformly below it, returns an empty vertex array and an empty geometry
array without raising. -/
theorem claim_C6 (Nx Ny : ℕ) (v : ℕ → ℕ → ℚ) (level : ℚ)
    (interp : Interpolation) (ac : ℚ → ℚ) (ra : Bool)
    (h2x : 2 ≤ Nx) (h2y : 2 ≤ Ny)
    (huni : (∀ x, x < Nx → ∀ y, y < Ny → level ≤ v x y) ∨
            (∀ x, x < Nx → ∀ y, y < Ny → v x y < level)) :
    marching_squares Nx Ny v level interp ac ra = some ([], []) := by
  rcases huni with hup | hdown
  · refine marching_uniform Nx Ny v level interp ac ra h2x h2y true ?_
    intro x hx y hy
    rw [volume_test_zeroed]
    exact decide_eq_true (hup x hx y hy)
  · refine marching_uniform Nx Ny v level interp ac ra h2x h2y false ?_
    intro x hx y hy
    rw [volume_test_zeroed]
    exact decide_eq_false (not_le.2 (hdown x hx y hy))

theorem claim_C6_witness :
    (2 ≤ 2) ∧
    ((∀ x, x < 2 → ∀ y, y < 2 → (0 : ℚ) ≤ (fun _ _ => (1 : ℚ)) x y) ∨
     (∀ x, x < 2 → ∀ y, y < 2 → (fun _ _ => (1 : ℚ)) x y < 0)) ∧
    marching_squares 2 2 (fun _ _ => (1 : ℚ)) 0 .LINEAR (fun _ => 0) true =
      some ([], []) :=
  ⟨le_refl 2,
   Or.inl fun _ _ _ _ => by norm_num,
   claim_C6 2 2 (fun _ _ => (1 : ℚ)) 0 .LINEAR (fun _ => 0) true (le_refl 2) (le_refl 2)
     (Or.inl fun _ _ _ _ => by norm_num)⟩

/-! ## Claims -/

/-- Claim C1: for every volume shape with all extents at least 2, with the
size multiplier computed as in the code, the map from (corner, direction)
pairs to edge ids is injective over in-range corners and directions:
distinct pairs never produce the same edge id. -/
theorem claim_C1 (shape : List ℕ) (nEdges : ℕ) (hshape : ∀ N ∈ shape, 2 ≤ N)
    (c1 c2 : List ℕ) (d1 d2 : ℕ)
    (hc1 : List.Forall₂ (· < ·) c1 shape) (hc2 : List.Forall₂ (· < ·) c2 shape)
    (hd1 : d1 < nEdges) (hd2 : d2 < nEdges)
    (h : edge_id c1 (size_multiplier nEdges shape) d1 =
         edge_id c2 (size_multiplier nEdges shape) d2) :
    c1 = c2 ∧ d1 = d2 :=
  edge_id_inj_aux nEdges shape c1 c2 hc1 hc2 d1 d2 hd1 hd2
    (fun N hN => lt_of_lt_of_le Nat.zero_lt_two (hshape N hN)) h

theorem claim_C1_witness :
    (∀ N ∈ [2, 3], 2 ≤ N) ∧ List.Forall₂ (· < ·) [1, 2] [2, 3] ∧ 1 < 2 ∧
    ([1, 2] = [1, 2] ∧ 1 = 1) :=
  ⟨by decide,
   List.Forall₂.cons (by decide) (List.Forall₂.cons (by decide) List.Forall₂.nil),
   by decide,
   claim_C1 [2, 3] 2 (by decide) [1, 2] [1, 2] 1 1
     (List.Forall₂.cons (by decide) (List.Forall₂.cons (by decide) List.Forall₂.nil))
     (List.Forall₂.cons (by decide) (List.Forall₂.cons (by decide) List.Forall₂.nil))
     (by decide) (by decide) rfl⟩

/-- Claim C2: the squares ambiguity resolver rewrites a type-5 cell to 16
and a type-10 cell to 17 exactly when the asymptotic-decider face test
`v(0,0) * v(1,1) < v(0,1) * v(1,0)` holds on the cell's 2x2 values; a false
test leaves the type unchanged and types other than 5 and 10 are never
modified. -/
theorem claim_C2 (types : ℕ → ℕ → ℕ) (v : ℕ → ℕ → ℚ) (x y : ℕ) :
    ambiguity_resolution types v x y =
      if types x y = 5 ∧ v x y * v (x + 1) (y + 1) < v x (y + 1) * v (x + 1) y
        then 16
      else if types x y = 10 ∧ v x y * v (x + 1) (y + 1) < v x (y + 1) * v (x + 1) y
        then 17
      else types x y := by
  unfold ambiguity_resolution resolve_pass interpolate_face_values
  by_cases h5 : types x y = 5 <;>
    by_cases h10 : types x y = 10 <;>
      by_cases hf : v x y * v (x + 1) (y + 1) < v x (y + 1) * v (x + 1) y <;>
        simp_all

/-- Claim C3, counterexample: on scenario S1's volume
`[[1, 1], [1, -1]]` the single cell is classified as type 11, not as the
claimed type 14 (corner `(0,0)` holds the value 1, which is at or above
the level, so bit 1 is set). -/
theorem claim_C3_counterexample :
    volume_types (volume_test s1vol) 0 0 = 11 ∧
    volume_types (volume_test s1vol) 0 0 ≠ 14 := by
  have h : volume_types (volume_test s1vol) 0 0 = 11 := by with_unfolding_all rfl
  exact ⟨h, by omega⟩

/-- Claim C3, amended: on `[[1, 1], [1, -1]]` with level 0 and LINEAR
interpolation the single cell is classified as type 0b1011 = 11, and the
output consists of exactly the 2 vertices `(0.5, 1.0)` (Top edge) and
`(1.0, 0.5)` (Right edge) joined by exactly 1 line segment. -/
theorem claim_C3_amended :
    marching_squares 2 2 s1vol 0 .LINEAR (fun _ => 0) true =
      some ([(1 / 2, 1), (1, 1 / 2)], [(1, 0)]) ∧
    volume_types (volume_test s1vol) 0 0 = 11 :=
  ⟨by with_unfolding_all rfl, by with_unfolding_all rfl⟩

/-- Claim C5: under LINEAR interpolation, whenever the endpoint tests
disagree the denominator is non-zero, the offset is `vA / (vA - vB)`,
it lies in `[0, 1]`, and the crossing equation
`vA + (vB - vA) * t = 0` holds exactly. -/
theorem claim_C5 (vA vB : ℚ) (acosOverPi : ℚ → ℚ)
    (h : ¬ ((0 ≤ vA) ↔ (0 ≤ vB))) :
    vA - vB ≠ 0 ∧
    interpolated_offset .LINEAR acosOverPi vA vB = vA / (vA - vB) ∧
    0 ≤ interpolated_offset .LINEAR acosOverPi vA vB ∧
    interpolated_offset .LINEAR acosOverPi vA vB ≤ 1 ∧
    vA + (vB - vA) * interpolated_offset .LINEAR acosOverPi vA vB = 0 := by
  have hoff : interpolated_offset .LINEAR acosOverPi vA vB = vA / (vA - vB) := rfl
  by_cases hA : 0 ≤ vA
  · have hB : vB < 0 := by
      by_contra hB
      exact h ⟨fun _ => le_of_not_lt hB, fun _ => hA⟩
    have hden : 0 < vA - vB := by linarith
    have hne : vA - vB ≠ 0 := ne_of_gt hden
    refine ⟨hne, hoff, ?_, ?_, ?_⟩
    · rw [hoff]; exact div_nonneg hA (le_of_lt hden)
    · rw [hoff, div_le_one hden]; linarith
    · rw [hoff]; field_simp; ring
  · have hA2 : vA < 0 := lt_of_not_le hA
    have hB : 0 ≤ vB := by
      by_contra hB
      exact h ⟨fun h0 => absurd h0 hA, fun h0 => absurd h0 hB⟩
    have hden : vA - vB < 0 := by linarith
    have hne : vA - vB ≠ 0 := ne_of_lt hden
    have hflip : vA / (vA - vB) = (-vA) / (vB - vA) := by
      rw [← neg_div_neg_eq]; ring_nf
    have hden2 : 0 < vB - vA := by linarith
    refine ⟨hne, hoff, ?_, ?_, ?_⟩
    · rw [hoff, hflip]; exact div_nonneg (by linarith) (le_of_lt hden2)
    · rw [hoff, hflip, div_le_one hden2]; linarith
    · rw [hoff]; field_simp; ring

theorem claim_C5_witness :
    ¬ ((0 ≤ (1 : ℚ)) ↔ (0 ≤ (-1 : ℚ))) ∧
    ((1 : ℚ) - (-1) ≠ 0 ∧
     interpolated_offset .LINEAR (fun _ => 0) 1 (-1) = 1 / (1 - (-1)) ∧
     0 ≤ interpolated_offset .LINEAR (fun _ => 0) 1 (-1) ∧
     interpolated_offset .LINEAR (fun _ => 0) 1 (-1) ≤ 1 ∧
     (1 : ℚ) + ((-1) - 1) * interpolated_offset .LINEAR (fun _ => 0) 1 (-1) = 0) :=
  ⟨by norm_num, claim_C5 1 (-1) (fun _ => 0) (by norm_num)⟩

/-- Claim C7, counterexample: on `[[1, 0], [1, 1]]` with level 0 the
marching call produces no vertices, but on the negated volume it produces
the vertex `(0, 1)` — the value sitting exactly at the level flips its
test under negation, so the vertex-position sets differ. -/
theorem claim_C7_counterexample :
    marching_squares 2 2 c7vol 0 .LINEAR (fun _ => 0) true = some ([], []) ∧
    ((0 : ℚ), (1 : ℚ)) ∈
      (marching_squares 2 2 (fun x y => -(c7vol x y)) 0 .LINEAR (fun _ => 0) true).elim
        [] Prod.fst := by
  have hneg : marching_squares 2 2 (fun x y => -(c7vol x y)) 0 .LINEAR (fun _ => 0) true =
      some ([(0, 1), (0, 1)], [(1, 0)]) := by with_unfolding_all rfl
  refine ⟨by with_unfolding_all rfl, ?_⟩
  rw [hneg]
  simp

/-- Claim C8: the classifier's width check raises for the 3-D corner
slices (`nDir = 8`) with dtype `uint8` (maximum 255) even though that
dtype does hold the largest type value `(1 << 8) - 1 = 255`: the code's
guard `1 << nDir > max` contradicts its own error message, which prints
`(1 << nDir) - 1` as the value that allegedly does not fit. -/
theorem claim_C8 :
    type_too_narrow 8 255 = true ∧ largest_type_value 8 ≤ 255 := by decide

/-- Claim C9, counterexample: the NUMPY remapping method used by
`marching` does not fail on a missing edge id: looking up geometry
`[(2, 2)]` in the ordered ids `[1, 3]` silently returns index 0 although
2 is not among the ids. -/
theorem claim_C9_counterexample :
    (2 : ℕ) ∉ ([1, 3] : List ℕ) ∧
    convert_indexes [(2, 2)] [1, 3] = some [(0, 0)] :=
  ⟨by decide, by with_unfolding_all rfl⟩

/-- Claim C4: in a marching call that returns, every edge id produced by
the geometry lookup appears in the intersect finder's id sequence, the
call returns the intersect vertices with every geometry entry replaced by
the ordinal position of its edge id in that sequence, and every such
entry is a valid index strictly below the vertex count. -/
theorem claim_C4 (Nx Ny : ℕ) (v : ℕ → ℕ → ℚ) (level : ℚ)
    (interp : Interpolation) (ac : ℚ → ℚ) (ra : Bool)
    (h2x : 2 ≤ Nx) (h2y : 2 ≤ Ny)
    (hsz : (ids_normal Nx Ny (volume_test (zeroed v level))).length < 2 ^ 64 - 1) :
    (∀ p ∈ pipeline_pre Nx Ny v level ra,
        p.1 ∈ ids_normal Nx Ny (volume_test (zeroed v level)) ∧
        p.2 ∈ ids_normal Nx Ny (volume_test (zeroed v level))) ∧
    marching_squares Nx Ny v level interp ac ra =
      some ((find_intersects Nx Ny (zeroed v level) (volume_test (zeroed v level)) interp ac).1,
            (pipeline_pre Nx Ny v level ra).map fun p =>
              ((ids_normal Nx Ny (volume_test (zeroed v level))).indexOf p.1,
               (ids_normal Nx Ny (volume_test (zeroed v level))).indexOf p.2)) ∧
    (∀ p ∈ pipeline_pre Nx Ny v level ra,
        (ids_normal Nx Ny (volume_test (zeroed v level))).indexOf p.1 <
          (find_intersects Nx Ny (zeroed v level) (volume_test (zeroed v level)) interp ac).1.length ∧
        (ids_normal Nx Ny (volume_test (zeroed v level))).indexOf p.2 <
          (find_intersects Nx Ny (zeroed v level) (volume_test (zeroed v level)) interp ac).1.length) := by
  refine ⟨fun p hp => pre_mem_ids Nx Ny v level ra p hp,
          marching_squares_spec Nx Ny v level interp ac ra h2x h2y hsz,
          fun p hp => ?_⟩
  have hm := pre_mem_ids Nx Ny v level ra p hp
  rw [find_intersects_fst_length]
  exact ⟨List.indexOf_lt_length.2 hm.1, List.indexOf_lt_length.2 hm.2⟩

theorem claim_C4_witness :
    (ids_normal 2 2 (volume_test (zeroed s1vol 0))).length < 2 ^ 64 - 1 ∧
    (∀ p ∈ pipeline_pre 2 2 s1vol 0 true,
        (ids_normal 2 2 (volume_test (zeroed s1vol 0))).indexOf p.1 <
          (find_intersects 2 2 (zeroed s1vol 0) (volume_test (zeroed s1vol 0)) .LINEAR
            (fun _ => 0)).1.length ∧
        (ids_normal 2 2 (volume_test (zeroed s1vol 0))).indexOf p.2 <
          (find_intersects 2 2 (zeroed s1vol 0) (volume_test (zeroed s1vol 0)) .LINEAR
            (fun _ => 0)).1.length) :=
  have hsz : (ids_normal 2 2 (volume_test (zeroed s1vol 0))).length < 2 ^ 64 - 1 := by
    have h2 : (ids_normal 2 2 (volume_test (zeroed s1vol 0))).length = 2 := by
      with_unfolding_all rfl
    rw [h2]
    norm_num
  ⟨hsz,
   (claim_C4 2 2 s1vol 0 .LINEAR (fun _ => 0) true (le_refl 2) (le_refl 2) hsz).2.2⟩

/-- Claim C7, amended: when no volume value sits exactly at the level,
negating the zero-referenced volume preserves the vertex output of the
marching call (the returned vertex arrays are identical; the remapped
connectivity may differ). -/
theorem claim_C7_amended (Nx Ny : ℕ) (v : ℕ → ℕ → ℚ)
    (interp : Interpolation) (ac : ℚ → ℚ) (ra : Bool)
    (hz : ∀ x, x < Nx → ∀ y, y < Ny → v x y ≠ 0)
    (hsz : (ids_normal Nx Ny (volume_test v)).length < 2 ^ 64 - 1) :
    (marching_squares Nx Ny (fun x y => -(v x y)) 0 interp ac ra).map Prod.fst =
    (marching_squares Nx Ny v 0 interp ac ra).map Prod.fst := by
  by_cases hshape : Nx < 2 ∨ Ny < 2
  · rw [marching_squares, marching_squares, if_pos hshape, if_pos hshape]
  · push_neg at hshape
    have htest : ∀ x, x < Nx → ∀ y, y < Ny →
        volume_test (fun a b => -(v a b)) x y = !(volume_test v x y) := by
      intro x hx y hy
      unfold volume_test
      rcases lt_or_gt_of_ne (hz x hx y hy) with h | h
      · rw [decide_eq_true (by linarith : (0 : ℚ) ≤ -(v x y)),
            decide_eq_false (by linarith : ¬ (0 : ℚ) ≤ v x y)]
        rfl
      · rw [decide_eq_false (by simp; linarith : ¬ (0 : ℚ) ≤ -(v x y)),
            decide_eq_true (le_of_lt h)]
        rfl
    have hcr0 : crossings0 Nx Ny (volume_test (fun a b => -(v a b))) =
        crossings0 Nx Ny (volume_test v) := by
      refine List.filter_congr ?_
      intro c hc
      obtain ⟨a, b⟩ := c
      replace hc := List.mem_product.1 hc
      simp only [List.mem_range] at hc
      rw [htest a (by omega) b (by omega), htest (a + 1) (by omega) b (by omega)]
      simp [Bool.not_bne]
    have hcr1 : crossings1 Nx Ny (volume_test (fun a b => -(v a b))) =
        crossings1 Nx Ny (volume_test v) := by
      refine List.filter_congr ?_
      intro c hc
      obtain ⟨a, b⟩ := c
      replace hc := List.mem_product.1 hc
      simp only [List.mem_range] at hc
      rw [htest a (by omega) b (by omega), htest a (by omega) (b + 1) (by omega)]
      simp [Bool.not_bne]
    have hoff : ∀ p q : ℚ, interpolated_offset interp ac (-p) (-q) =
        interpolated_offset interp ac p q := by
      intro p q
      cases interp with
      | HALFWAY => rfl
      | LINEAR =>
          show (-p) / (-p - -q) = p / (p - q)
          have h1 : -p - -q = -(p - q) := by ring
          rw [h1, neg_div_neg_eq]
      | COSINE =>
          show ac ((-q + -p) / (-q - -p)) = ac ((q + p) / (q - p))
          have h1 : -q + -p = -(q + p) := by ring
          have h2 : -q - -p = -(q - p) := by ring
          rw [h1, h2, neg_div_neg_eq]
    have hvert :
        (find_intersects Nx Ny (fun a b => -(v a b)) (volume_test (fun a b => -(v a b))) interp ac).1 =
        (find_intersects Nx Ny v (volume_test v) interp ac).1 := by
      simp only [find_intersects, hcr0, hcr1]
      congr 1
      · exact List.map_congr_left fun c _ => by rw [hoff]
      · exact List.map_congr_left fun c _ => by rw [hoff]
    have hids : ids_normal Nx Ny (volume_test (fun a b => -(v a b))) =
        ids_normal Nx Ny (volume_test v) := by
      rw [ids_normal, ids_normal, hcr0, hcr1]
    have hszn : (ids_normal Nx Ny (volume_test (zeroed (fun x y => -(v x y)) 0))).length <
        2 ^ 64 - 1 := by
      rw [zeroed_zero]
      rw [show (fun x y => -(v x y)) = fun a b => -(v a b) from rfl, hids]
      exact hsz
    have hszp : (ids_normal Nx Ny (volume_test (zeroed v 0))).length < 2 ^ 64 - 1 := by
      rw [zeroed_zero]; exact hsz
    rw [marching_squares_spec Nx Ny _ 0 interp ac ra hshape.1 hshape.2 hszn,
        marching_squares_spec Nx Ny v 0 interp ac ra hshape.1 hshape.2 hszp]
    simp only [Option.map_some']
    rw [zeroed_zero, zeroed_zero]
    exact congrArg some hvert

theorem claim_C7_amended_witness :
    (∀ x, x < 2 → ∀ y, y < 2 → s1vol x y ≠ 0) ∧
    (marching_squares 2 2 (fun x y => -(s1vol x y)) 0 .LINEAR (fun _ => 0) true).map Prod.fst =
    (marching_squares 2 2 s1vol 0 .LINEAR (fun _ => 0) true).map Prod.fst :=
  have hz : ∀ x, x < 2 → ∀ y, y < 2 → s1vol x y ≠ 0 := by
    with_unfolding_all decide
  have hsz : (ids_normal 2 2 (volume_test s1vol)).length < 2 ^ 64 - 1 := by
    have h2 : (ids_normal 2 2 (volume_test s1vol)).length = 2 := by
      with_unfolding_all rfl
    rw [h2]
    norm_num
  ⟨hz, claim_C7_amended 2 2 s1vol .LINEAR (fun _ => 0) true hz hsz⟩

/-- Claim C9, amended: the NUMPY remapper maps an edge id that is present
to its ordinal position, silently maps a missing edge id that does not
exceed the maximum of the id sequence to index 0, and fails only when
some id exceeds that maximum. -/
theorem claim_C9_amended (arr : List (ℕ × ℕ)) (ids : List ℕ) (hnd : ids.Nodup)
    (hne : ids ≠ []) (hsz : ids.length < 2 ^ 64 - 1) :
    ((∀ p ∈ arr, p.1 ≤ ids.foldl max 0 ∧ p.2 ≤ ids.foldl max 0) →
      convert_indexes arr ids =
        some (arr.map fun p =>
          ((if p.1 ∈ ids then ids.indexOf p.1 else 0),
           (if p.2 ∈ ids then ids.indexOf p.2 else 0)))) ∧
    (∀ p ∈ arr, ids.foldl max 0 < p.1 → convert_indexes arr ids = none) := by
  constructor
  · intro hle
    match arr with
    | [] => rfl
    | q :: arr2 =>
        rw [convert_indexes, if_neg (by simp), ndarray_numpy_ordered_lookup,
          if_neg (by omega), if_neg hne]
        refine lookup_all_eq_map _ _ (fun e => if e ∈ ids then ids.indexOf e else 0) ?_
        intro p hp
        dsimp only
        constructor
        · by_cases hmem : p.1 ∈ ids
          · rw [if_pos hmem]; exact numpy_table_get ids hnd p.1 hmem
          · rw [if_neg hmem]; exact numpy_table_get_missing ids p.1 hmem (hle p hp).1
        · by_cases hmem : p.2 ∈ ids
          · rw [if_pos hmem]; exact numpy_table_get ids hnd p.2 hmem
          · rw [if_neg hmem]; exact numpy_table_get_missing ids p.2 hmem (hle p hp).2
  · intro p hp hgt
    have harr : arr ≠ [] := by
      intro h0; rw [h0] at hp; cases hp
    rw [convert_indexes, if_neg harr, ndarray_numpy_ordered_lookup,
      if_neg (by omega), if_neg hne]
    exact lookup_all_none _ _ p hp (numpy_table_get_oob ids p.1 hgt)

theorem claim_C9_amended_witness :
    ([1, 3] : List ℕ).Nodup ∧ ([1, 3] : List ℕ) ≠ [] ∧
    convert_indexes [(2, 2)] [1, 3] =
      some ([(2, 2)].map fun p =>
        ((if p.1 ∈ ([1, 3] : List ℕ) then ([1, 3] : List ℕ).indexOf p.1 else 0),
         (if p.2 ∈ ([1, 3] : List ℕ) then ([1, 3] : List ℕ).indexOf p.2 else 0))) :=
  ⟨by decide, by decide,
   (claim_C9_amended [(2, 2)] [1, 3] (by decide) (by decide) (by norm_num)).1
     (by decide)⟩

/-- Claim C10: under HALFWAY interpolation, two volumes with the same
shape and elementwise equal sign tests produce identical
(intersects, intersect_ids) outputs: the result depends on the volume
only through its test array. -/
theorem claim_C10 (Nx Ny : ℕ) (v1 v2 : ℕ → ℕ → ℚ) (ac1 ac2 : ℚ → ℚ)
    (h : ∀ x, x < Nx → ∀ y, y < Ny → volume_test v1 x y = volume_test v2 x y) :
    find_intersects Nx Ny v1 (volume_test v1) .HALFWAY ac1 =
    find_intersects Nx Ny v2 (volume_test v2) .HALFWAY ac2 := by
  have hcr0 : crossings0 Nx Ny (volume_test v1) = crossings0 Nx Ny (volume_test v2) := by
    refine List.filter_congr ?_
    intro c hc
    obtain ⟨a, b⟩ := c
    replace hc := List.mem_product.1 hc
    simp only [List.mem_range] at hc
    rw [h a (by omega) b (by omega), h (a + 1) (by omega) b (by omega)]
  have hcr1 : crossings1 Nx Ny (volume_test v1) = crossings1 Nx Ny (volume_test v2) := by
    refine List.filter_congr ?_
    intro c hc
    obtain ⟨a, b⟩ := c
    replace hc := List.mem_product.1 hc
    simp only [List.mem_range] at hc
    rw [h a (by omega) b (by omega), h a (by omega) (b + 1) (by omega)]
  simp only [find_intersects, hcr0, hcr1, interpolated_offset]

theorem claim_C10_witness :
    (∀ x, x < 2 → ∀ y, y < 2 →
        volume_test s1vol x y = volume_test (fun a b => 2 * s1vol a b) x y) ∧
    find_intersects 2 2 s1vol (volume_test s1vol) .HALFWAY (fun _ => 0) =
    find_intersects 2 2 (fun a b => 2 * s1vol a b)
      (volume_test (fun a b => 2 * s1vol a b)) .HALFWAY (fun q => q) :=
  have h : ∀ x, x < 2 → ∀ y, y < 2 →
      volume_test s1vol x y = volume_test (fun a b => 2 * s1vol a b) x y := by
    with_unfolding_all decide
  ⟨h, claim_C10 2 2 s1vol (fun a b => 2 * s1vol a b) (fun _ => 0) (fun q => q) h⟩

end Marching
